import Mathlib

/-!
# Verification of `generate_forms.py`

A shallow embedding of the text-processing core of the DOCX form filler:
label normalization, diacritic stripping, filename sanitization, placeholder
substitution, the `$Field[idx]` filename template mini-language, output-name
resolution and collision-avoiding filename suffixing.

Python strings are modelled as `List Char`.  Python `dict[str, str]` values
are modelled as association lists (`List (PyStr × PyStr)`) whose lookup gives
the *last* binding of a key, matching the overwrite-on-insert behaviour of
the dictionaries built by `row_to_replacements`.

Character-class functions (`\s`, `\d`, `str.casefold`, NFKD decomposition)
are modelled as executable character tables.  `isPySpace` enumerates the
Unicode whitespace characters recognised by Python; `isPyDigit` covers the
ASCII decimal digits (Python's `\d` additionally accepts non-ASCII decimal
digits, which no input in this development contains); `caseFoldChar` is the
character-wise part of `str.casefold`, which is the identity outside the
cased letters (full casefold additionally lowercases and expands non-ASCII
cased letters); `nfkdChar` carries the NFKD decompositions of the characters
exercised here, all other characters decomposing to themselves.
-/

/-- A Python string, modelled as its list of characters. -/
abbrev PyStr := List Char

/-- A Python `dict[str, str]`, as an association list.  Lookups return the
last binding, so that appending a binding models dict insertion. -/
abbrev PyDict := List (PyStr × PyStr)

/-- Python `d.get(k)`: the value of the last binding of `k`, if any. -/
def dictGet (d : PyDict) (key : PyStr) : Option PyStr :=
  match d with
  | [] => none
  | (k, v) :: rest =>
    match dictGet rest key with
    | some v' => some v'
    | none => if k = key then some v else none

/-- Membership test `k in d`. -/
def dictHasKey (d : PyDict) (key : PyStr) : Bool :=
  (dictGet d key).isSome

/-- The whitespace characters of Python (`str.strip`, `str.split`, and the
regex class `\s`): the Unicode whitespace code points. -/
def isPySpace (c : Char) : Bool :=
  let n := c.toNat
  (9 ≤ n && n ≤ 13) || (28 ≤ n && n ≤ 32) || n == 133 || n == 160 ||
    n == 5760 || (8192 ≤ n && n ≤ 8202) || n == 8232 || n == 8233 ||
    n == 8239 || n == 8287 || n == 12288

/-- Python `str.strip()`: remove leading and trailing whitespace. -/
def pyStrip (s : PyStr) : PyStr :=
  ((s.dropWhile isPySpace).reverse.dropWhile isPySpace).reverse

/-- One step of `re.sub(r"\s+", r, s)`: every maximal run of whitespace
characters is replaced by the single character `r`. -/
def collapseWs (r : Char) : PyStr → PyStr
  | [] => []
  | [c] => [if isPySpace c then r else c]
  | a :: b :: t =>
    if isPySpace a then
      if isPySpace b then collapseWs r (b :: t)
      else r :: collapseWs r (b :: t)
    else a :: collapseWs r (b :: t)

/-- The character-wise part of `str.casefold`: lowercase the ASCII letters
(identity on every character without a case mapping). -/
def caseFoldChar (c : Char) : Char :=
  if 65 ≤ c.toNat ∧ c.toNat ≤ 90 then Char.ofNat (c.toNat + 32) else c

/-- Model of `clean[1:] if clean.startswith("#") else clean`: remove exactly one
leading `#`. -/
def stripHash (s : PyStr) : PyStr :=
  match s with
  | '#' :: t => t
  | t => t

/-- Model of `normalize_label` from `generate_forms.py`: empty input maps to the empty
key; otherwise strip, remove exactly one leading `#`, collapse whitespace
runs to single spaces, and casefold. -/
def normalize_label (label : PyStr) : PyStr :=
  if label = [] then []
  else (collapseWs ' ' (stripHash (pyStrip label))).map caseFoldChar

/-- The NFKD decomposition of a character
(`unicodedata.normalize("NFKD", ...)`), tabulated for the characters
exercised in this development; every character not listed decomposes to
itself.  The entries are the real Unicode data: `é` and `ó` decompose into
the base letter followed by U+0301 COMBINING ACUTE ACCENT, the no-break
space has compatibility decomposition to a plain space, and `²` (U+00B2)
has compatibility decomposition to the digit `2`. -/
def nfkdChar (c : Char) : PyStr :=
  if c = 'é' then ['e', '́']
  else if c = 'ó' then ['o', '́']
  else if c = ' ' then [' ']
  else if c = '²' then ['2']
  else [c]

/-- Python `unicodedata.combining(c) != 0`, i.e. `c` is a combining character, for
the block U+0300–U+036F of combining diacritical marks (the only combining
characters producible by `nfkdChar`). -/
def isCombining (c : Char) : Bool :=
  768 ≤ c.toNat && c.toNat ≤ 879

/-- Model of `strip_diacritics` from `generate_forms.py`: NFKD-normalize, then drop
every combining character. -/
def strip_diacritics (s : PyStr) : PyStr :=
  (s.flatMap nfkdChar).filter (fun c => !(isCombining c))

/-- The character class `[A-Za-z0-9._-]` kept by `sanitize_filename`. -/
def isAllowedFileChar (c : Char) : Bool :=
  (65 ≤ c.toNat && c.toNat ≤ 90) || (97 ≤ c.toNat && c.toNat ≤ 122) ||
    (48 ≤ c.toNat && c.toNat ≤ 57) || c == '.' || c == '_' || c == '-'

/-- Model of `sanitize_filename` from `generate_forms.py`: strip, strip diacritics,
replace every whitespace run by one underscore, delete disallowed
characters. -/
def sanitize_filename (raw : PyStr) : PyStr :=
  (collapseWs '_' (strip_diacritics (pyStrip raw))).filter isAllowedFileChar

/-- Model of `replace_placeholders` from `generate_forms.py`: the action of
`PLACEHOLDER_PATTERN.sub` with pattern `\[\[\s*([^\]]+?)\s*\]\]`.

The scan reflects the Python regex engine on that pattern: a match starts at
a literal `[[`; since neither `\s*` nor the lazy capture can consume `]`,
the matched interior is exactly the (nonempty) run of non-`]` characters
after the `[[`, and it must be followed by `]]`; the capture is that
interior with surrounding whitespace moved into the `\s*` groups, so the
normalized key of the capture equals the normalized key of the whole
interior (`normalize_label` strips first).  On a match, a key present in
the table is replaced by its value and the scan resumes after the `]]`
(a single pass, no rescan of inserted text); an absent key leaves the whole
matched span unchanged and the scan also resumes after the `]]`.  Where no
match starts, one character is emitted and the scan moves on. -/
def replace_placeholders (tbl : PyDict) (s : PyStr) : PyStr :=
  match s with
  | [] => []
  | '[' :: '[' :: rest =>
    let p := rest.takeWhile (fun c => !(c == ']'))
    let r := rest.dropWhile (fun c => !(c == ']'))
    if p ≠ [] ∧ r.take 2 = [']', ']'] then
      match dictGet tbl (normalize_label p) with
      | some v => v ++ replace_placeholders tbl (r.drop 2)
      | none => '[' :: '[' :: (p ++ ']' :: ']' :: replace_placeholders tbl (r.drop 2))
    else '[' :: replace_placeholders tbl ('[' :: rest)
  | c :: rest => c :: replace_placeholders tbl rest
termination_by s.length
decreasing_by
  all_goals simp_all
  all_goals
    have h := List.Sublist.length_le (List.dropWhile_sublist (p := fun c => !(c == ']')) (l := rest))
    omega

/-- The regex class `\d` (restricted, as noted above, to ASCII digits). -/
def isPyDigit (c : Char) : Bool :=
  48 ≤ c.toNat && c.toNat ≤ 57

/-- Attempt to match the optional group `(?:\[(\d+)\])?` of
`NAME_TEMPLATE_PATTERN` at the start of `s`: a `[`, one or more digits, and
a `]`.  Returns the captured digits; the remainder of the scan after the
closing `]` is then `s.drop (ds.length + 2)`. -/
def tryIndex (s : PyStr) : Option PyStr :=
  match s with
  | [] => none
  | a :: rest =>
    if a = '[' then
      let ds := rest.takeWhile isPyDigit
      if ds = [] then none
      else
        match rest.dropWhile isPyDigit with
        | ']' :: _ => some ds
        | _ => none
    else none

/-- Python `str.split()` with no separator: split on whitespace runs, discarding
empty pieces.  `acc` is the current word, reversed. -/
def pySplitGo (acc : PyStr) : PyStr → List PyStr
  | [] => if acc = [] then [] else [acc.reverse]
  | c :: rest =>
    if isPySpace c then
      if acc = [] then pySplitGo [] rest
      else acc.reverse :: pySplitGo [] rest
    else pySplitGo (c :: acc) rest

/-- Model of `value.split()` from the evaluator. -/
def pySplit (s : PyStr) : List PyStr :=
  pySplitGo [] s

/-- Python `int(index_str)` for a digit string (what `\d+` can capture). -/
def decValue (ds : PyStr) : Nat :=
  ds.foldl (fun a c => a * 10 + (c.toNat - 48)) 0

/-- The replacement function `repl` inside `evaluate_name_template`: look up
the normalized single-character label; an absent or empty value yields the
empty string; with an index, split the value on whitespace and take the
zero-based part, or the empty string when out of range. -/
def nameTokenRepl (tbl : PyDict) (label : PyStr) (idx : Option PyStr) : PyStr :=
  let value := (dictGet tbl (normalize_label label)).getD []
  if value = [] then []
  else
    match idx with
    | none => value
    | some ds =>
      let i := decValue ds
      let parts := pySplit value
      if i < parts.length then parts.getD i [] else []

/-- Model of `evaluate_name_template` from `generate_forms.py`: the action of
`NAME_TEMPLATE_PATTERN.sub` with pattern `\$([^$\[\]]+?)(?:\[(\d+)\])?`.

The scan reflects the Python regex engine on that pattern: after the `$`,
the lazy group `[^$\[\]]+?` first tries a single character, and because the
following group is optional the overall match then always succeeds, so the
captured field name is always exactly one character (this is why e.g.
`$Name[1]` matches only `$N`, with no index).  The optional
`\[(\d+)\]` group is then tried greedily right after that character.  A `$`
followed by `$`, `[`, `]` or end of input starts no match and is emitted
verbatim. -/
def evaluate_name_template (tbl : PyDict) (s : PyStr) : PyStr :=
  match s with
  | [] => []
  | '$' :: c :: rest =>
    if c = '$' || c = '[' || c = ']' then '$' :: evaluate_name_template tbl (c :: rest)
    else
      match tryIndex rest with
      | some ds =>
        nameTokenRepl tbl [c] (some ds) ++
          evaluate_name_template tbl (rest.drop (ds.length + 2))
      | none => nameTokenRepl tbl [c] none ++ evaluate_name_template tbl rest
  | c :: rest => c :: evaluate_name_template tbl rest
termination_by s.length
decreasing_by
  all_goals simp_all
  all_goals omega

/-- Model of `NAME_TEMPLATE_PATTERN.search(s) is not None`: some position starts a
match, i.e. some `$` is followed by a character other than `$`, `[`, `]`. -/
def hasNameToken (s : PyStr) : Bool :=
  match s with
  | [] => false
  | '$' :: c :: rest =>
    if c = '$' || c = '[' || c = ']' then hasNameToken (c :: rest) else true
  | _ :: rest => hasNameToken rest

/-- Model of `clean_cell_value` from `generate_forms.py`: `None` becomes the empty
string, other values are stripped, and a whitespace-only value becomes the
empty string. -/
def clean_cell_value (value : Option PyStr) : PyStr :=
  match value with
  | none => []
  | some v =>
    let text := pyStrip v
    if text = [] then [] else text

/-- The per-row logic of `load_rows`: a row whose values are all `None` or
whitespace-only is skipped (`none`); otherwise its cells are cleaned with
`clean_cell_value` and entries with an empty label are dropped.  A raw CSV
row is modelled as its label/value pairs in column order. -/
def load_row (row : List (PyStr × Option PyStr)) : Option (List (PyStr × PyStr)) :=
  if row.all (fun kv =>
      match kv.2 with
      | none => true
      | some v => pyStrip v = []) then
    none
  else
    some ((row.filter (fun kv => !(kv.1 = []))).map (fun kv => (kv.1, clean_cell_value kv.2)))

/-- Model of `row_to_replacements` from `generate_forms.py`: normalize every label.
Since `dictGet` returns the last binding of a key, the association list
models the last-write-wins dict insertion of the source. -/
def row_to_replacements (row : List (PyStr × PyStr)) : PyDict :=
  row.map (fun kv => (normalize_label kv.1, kv.2))

/-- A decimal digit as a character. -/
def decDigit (n : Nat) : Char :=
  Char.ofNat (48 + n % 10)

/-- Little-endian decimal digits of `n`, with enough fuel. -/
def decDigitsLE (fuel n : Nat) : PyStr :=
  match fuel with
  | 0 => []
  | fuel + 1 => if n = 0 then [] else decDigit n :: decDigitsLE fuel (n / 10)

/-- Decode a little-endian digit string; used to show that `natStr` is
injective (and hence that the collision-avoidance candidates are pairwise
distinct). -/
def decValLE (l : PyStr) : Nat :=
  match l with
  | [] => 0
  | c :: t => (c.toNat - 48) + 10 * decValLE t

/-- Python `str(n)` for a natural number. -/
def natStr (n : Nat) : PyStr :=
  if n = 0 then ['0'] else (decDigitsLE (n + 1) n).reverse

/-- Python `f"{n:03d}"`: decimal, zero-padded on the left to width 3. -/
def pad3 (n : Nat) : PyStr :=
  List.replicate (3 - (natStr n).length) '0' ++ natStr n

/-- The fallback loop of `resolve_name`: the sanitized form of the first
value that is non-empty, does not strip to empty, and sanitizes to a
non-empty token. -/
def firstUsableValue (row : List (PyStr × PyStr)) : Option PyStr :=
  match row with
  | [] => none
  | (_, v) :: rest =>
    if v ≠ [] ∧ pyStrip v ≠ [] then
      if sanitize_filename v ≠ [] then some (sanitize_filename v)
      else firstUsableValue rest
    else firstUsableValue rest

/-- Model of `resolve_name` from `generate_forms.py`: if a name column/template is
given, evaluate it as a template when it contains a `$` token, otherwise as
a direct normalized column lookup; keep the sanitized result when the
stripped candidate and its sanitized form are non-empty.  Otherwise fall
back to the first usable row value, and finally to `row_{index:03d}`. -/
def resolve_name (row : List (PyStr × PyStr)) (replacements : PyDict)
    (name_column : Option PyStr) (index : Nat) : PyStr :=
  let candidate : PyStr :=
    match name_column with
    | none => []
    | some nc =>
      if nc = [] then []
      else
        pyStrip (if hasNameToken nc then evaluate_name_template replacements nc
                 else (dictGet replacements (normalize_label nc)).getD [])
  if candidate ≠ [] ∧ sanitize_filename candidate ≠ [] then sanitize_filename candidate
  else
    match firstUsableValue row with
    | some s => s
    | none => ("row_").toList ++ pad3 index

/-- The candidate filename `f"{base_name}_{counter}.docx"` tried by the
collision-avoidance loop in `main` (`counter ≥ 1`). -/
def suffixedName (base : PyStr) (counter : Nat) : PyStr :=
  base ++ '_' :: natStr counter ++ (".docx").toList

/-- The collision-avoidance loop of `main`: starting at `counter`, return
the first suffixed candidate not in `existing`.  The Python `while` loop
needs at most `existing.length` unsuccessful probes, because the candidates
are pairwise distinct; the fuel makes the recursion structural and is never
exhausted when `fuel > existing.length`. -/
def freeSuffixed (existing : List PyStr) (base : PyStr) (fuel counter : Nat) : PyStr :=
  match fuel with
  | 0 => suffixedName base counter
  | fuel + 1 =>
    if suffixedName base counter ∈ existing then freeSuffixed existing base fuel (counter + 1)
    else suffixedName base counter

/-- The per-row output-filename logic of `main`: `{base}.docx` when free,
otherwise the first free `{base}_{counter}.docx` with `counter` counting up
from 1.  `existing` holds the filenames already present in the output
directory, including those written earlier in the same run. -/
def outputName (existing : List PyStr) (base : PyStr) : PyStr :=
  let plain := base ++ (".docx").toList
  if plain ∈ existing then freeSuffixed existing base (existing.length + 1) 1
  else plain

/-- Invariant characterizing strings already fully collapsed with `' '`:
every whitespace character is a plain space and no two adjacent characters
are both whitespace.  `collapseWs ' '` always produces such a string and
fixes exactly such strings. -/
def goodSpaced : PyStr → Bool
  | [] => true
  | [c] => !(isPySpace c) || (c == ' ')
  | a :: b :: t =>
    (!(isPySpace a) || ((a == ' ') && !(isPySpace b))) && goodSpaced (b :: t)

/-! ## Supporting lemmas -/

theorem toNat_ofNat_of_lt (n : Nat) (h : n < 55296) : (Char.ofNat n).toNat = n := by
  have hv : n.isValidChar := Or.inl h
  simp [Char.ofNat, hv, Char.ofNatAux, Char.toNat, UInt32.toNat, BitVec.toNat_ofNatLt]

theorem caseFoldChar_toNat (c : Char) :
    (caseFoldChar c).toNat =
      if 65 ≤ c.toNat ∧ c.toNat ≤ 90 then c.toNat + 32 else c.toNat := by
  by_cases h : 65 ≤ c.toNat ∧ c.toNat ≤ 90
  · simp [caseFoldChar, h, toNat_ofNat_of_lt _ (by omega : c.toNat + 32 < 55296)]
  · simp [caseFoldChar, h]

theorem isPySpace_toNat (c : Char) :
    isPySpace c = true ↔
      (9 ≤ c.toNat ∧ c.toNat ≤ 13) ∨ (28 ≤ c.toNat ∧ c.toNat ≤ 32) ∨
        c.toNat = 133 ∨ c.toNat = 160 ∨ c.toNat = 5760 ∨
        (8192 ≤ c.toNat ∧ c.toNat ≤ 8202) ∨ c.toNat = 8232 ∨ c.toNat = 8233 ∨
        c.toNat = 8239 ∨ c.toNat = 8287 ∨ c.toNat = 12288 := by
  simp [isPySpace]
  omega

theorem isPySpace_caseFoldChar (c : Char) :
    isPySpace (caseFoldChar c) = isPySpace c := by
  have h := caseFoldChar_toNat c
  rw [Bool.eq_iff_iff, isPySpace_toNat, isPySpace_toNat]
  by_cases hc : 65 ≤ c.toNat ∧ c.toNat ≤ 90
  · rw [if_pos hc] at h
    rw [h]
    omega
  · rw [if_neg hc] at h
    rw [h]

theorem char_eq_of_toNat {a b : Char} (h : a.toNat = b.toNat) : a = b := by
  exact_mod_cast Char.ofNat_toNat a ▸ Char.ofNat_toNat b ▸ congrArg Char.ofNat h

theorem caseFoldChar_idem (c : Char) :
    caseFoldChar (caseFoldChar c) = caseFoldChar c := by
  have h := caseFoldChar_toNat c
  by_cases hc : 65 ≤ c.toNat ∧ c.toNat ≤ 90
  · rw [if_pos hc] at h
    have hcond : ¬(65 ≤ (caseFoldChar c).toNat ∧ (caseFoldChar c).toNat ≤ 90) := by
      rw [h]; omega
    rw [show caseFoldChar (caseFoldChar c) =
        if 65 ≤ (caseFoldChar c).toNat ∧ (caseFoldChar c).toNat ≤ 90 then
          Char.ofNat ((caseFoldChar c).toNat + 32)
        else caseFoldChar c from rfl, if_neg hcond]
  · rw [if_neg hc] at h
    have hcc : caseFoldChar c = c := char_eq_of_toNat h
    rw [hcc]
    exact hcc

theorem caseFoldChar_hash {c : Char} (h : caseFoldChar c = '#') : c = '#' := by
  have ht := caseFoldChar_toNat c
  rw [h] at ht
  by_cases hc : 65 ≤ c.toNat ∧ c.toNat ≤ 90
  · rw [if_pos hc] at ht
    have h35 : ('#').toNat = 35 := rfl
    omega
  · rw [if_neg hc] at ht
    exact char_eq_of_toNat ht.symm

theorem dropWhile_head_false {p : Char → Bool} {l : PyStr} {c : Char} {t : PyStr}
    (h : l.dropWhile p = c :: t) : p c = false := by
  have hne : l.dropWhile p ≠ [] := by simp [h]
  have := List.head_dropWhile_not p l hne
  rwa [show (l.dropWhile p).head hne = c by rw [List.head_eq_iff_head?_eq_some]; simp [h]] at this

theorem getLast?_dropWhile (p : Char → Bool) (l : PyStr) :
    l.dropWhile p = [] ∨ (l.dropWhile p).getLast? = l.getLast? := by
  induction l with
  | nil => left; rfl
  | cons a t ih =>
    by_cases hp : p a
    · rw [List.dropWhile_cons_of_pos hp]
      rcases ih with h | h
      · left; exact h
      · cases t with
        | nil => left; rfl
        | cons b u => right; rw [h, List.getLast?_cons_cons]
    · right
      rw [List.dropWhile_cons_of_neg hp]

theorem pyStrip_head_false {l : PyStr} {c : Char} {t : PyStr}
    (h : pyStrip l = c :: t) : isPySpace c = false := by
  unfold pyStrip at h
  set A := l.dropWhile isPySpace with hA
  set B := A.reverse.dropWhile isPySpace with hB
  have hBne : B ≠ [] := by
    intro hnil
    rw [hnil] at h
    simp at h
  have h1 : B.reverse.head? = some c := by rw [h]; rfl
  have h2 : B.reverse.head? = B.getLast? := List.head?_reverse B
  rcases getLast?_dropWhile isPySpace A.reverse with hc | hc
  · exact absurd hc hBne
  · have h3 : A.reverse.getLast? = A.head? := List.getLast?_reverse A
    have h4 : A.head? = some c := by
      rw [← h3, ← hc, ← h2, h1]
    cases hA2 : A with
    | nil => rw [hA2] at h4; simp at h4
    | cons a u =>
      rw [hA2] at h4
      simp at h4
      subst h4
      exact dropWhile_head_false hA2

theorem pyStrip_reverse_head_false {l : PyStr} {c : Char} {t : PyStr}
    (h : (pyStrip l).reverse = c :: t) : isPySpace c = false := by
  unfold pyStrip at h
  rw [List.reverse_reverse] at h
  exact dropWhile_head_false h

theorem pyStrip_eq_self {l : PyStr}
    (h1 : ∀ c, l.head? = some c → isPySpace c = false)
    (h2 : ∀ c, l.getLast? = some c → isPySpace c = false) :
    pyStrip l = l := by
  cases l with
  | nil => rfl
  | cons a t =>
    unfold pyStrip
    rw [List.dropWhile_cons_of_neg (by simp [h1 a rfl])]
    cases hr : (a :: t).reverse with
    | nil => simp at hr
    | cons b u =>
      have hb : (a :: t).getLast? = some b := by
        rw [← List.head?_reverse, hr]
        rfl
      rw [List.dropWhile_cons_of_neg (by simp [h2 b hb])]
      rw [← hr, List.reverse_reverse]

theorem pyStrip_idem (l : PyStr) : pyStrip (pyStrip l) = pyStrip l := by
  apply pyStrip_eq_self
  · intro c hc
    cases hs : pyStrip l with
    | nil => rw [hs] at hc; simp at hc
    | cons a u =>
      rw [hs] at hc
      simp at hc
      subst hc
      exact pyStrip_head_false hs
  · intro c hc
    rw [← List.head?_reverse] at hc
    cases hs : (pyStrip l).reverse with
    | nil => rw [hs] at hc; simp at hc
    | cons a u =>
      rw [hs] at hc
      simp at hc
      subst hc
      exact pyStrip_reverse_head_false hs

theorem pyStrip_ws_append {w : PyStr} (hw : ∀ c ∈ w, isPySpace c = true) (l : PyStr) :
    pyStrip (w ++ l) = pyStrip l := by
  unfold pyStrip
  rw [List.dropWhile_append_of_pos hw]

theorem pyStrip_append_ws {w : PyStr} (hw : ∀ c ∈ w, isPySpace c = true) (l : PyStr) :
    pyStrip (l ++ w) = pyStrip l := by
  unfold pyStrip
  rw [List.dropWhile_append]
  by_cases he : (l.dropWhile isPySpace).isEmpty
  · rw [if_pos he]
    rw [List.dropWhile_eq_nil_iff.mpr hw]
    simp only [List.isEmpty_iff] at he
    rw [he]
  · rw [if_neg he]
    rw [List.reverse_append,
      List.dropWhile_append_of_pos (fun a ha => hw a (List.mem_reverse.mp ha))]

theorem pyStrip_all_ws {l : PyStr} (h : ∀ c ∈ l, isPySpace c = true) :
    pyStrip l = [] := by
  unfold pyStrip
  rw [List.dropWhile_eq_nil_iff.mpr h]
  rfl

theorem collapseWs_cons_of_neg {r a : Char} {t : PyStr} (h : isPySpace a = false) :
    collapseWs r (a :: t) = a :: collapseWs r t := by
  cases t with
  | nil => simp [collapseWs, h]
  | cons b u => simp [collapseWs, h]

theorem collapseWs_ne_nil (r a : Char) (t : PyStr) : collapseWs r (a :: t) ≠ [] := by
  induction t generalizing a with
  | nil => simp [collapseWs]
  | cons b u ih =>
    show collapseWs r (a :: b :: u) ≠ []
    unfold collapseWs
    by_cases ha : isPySpace a
    · by_cases hb : isPySpace b
      · simp only [ha, hb, if_pos]
        exact ih b
      · simp [ha, hb]
    · simp [ha]

theorem getLast?_cons_of_ne_nil {x : Char} {l : PyStr} (h : l ≠ []) :
    (x :: l).getLast? = l.getLast? := by
  cases l with
  | nil => exact absurd rfl h
  | cons b u => rw [List.getLast?_cons_cons]

theorem collapseWs_getLast? {r : Char} {s : PyStr} {c : Char}
    (hlast : s.getLast? = some c) (hc : isPySpace c = false) :
    (collapseWs r s).getLast? = some c := by
  induction s with
  | nil => simp at hlast
  | cons a t ih =>
    cases t with
    | nil =>
      simp at hlast
      subst hlast
      simp [collapseWs, hc]
    | cons b u =>
      rw [List.getLast?_cons_cons] at hlast
      have htail := ih hlast
      show ((if isPySpace a then
          if isPySpace b then collapseWs r (b :: u)
          else r :: collapseWs r (b :: u)
        else a :: collapseWs r (b :: u))).getLast? = some c
      by_cases ha : isPySpace a
      · by_cases hb : isPySpace b
        · simp only [ha, hb, if_pos]
          exact htail
        · simp only [ha, hb, if_pos, if_neg, Bool.false_eq_true, not_false_iff]
          rw [getLast?_cons_of_ne_nil (collapseWs_ne_nil r b u)]
          exact htail
      · simp only [ha, Bool.false_eq_true, if_neg, not_false_iff]
        rw [getLast?_cons_of_ne_nil (collapseWs_ne_nil r b u)]
        exact htail

theorem goodSpaced_collapseWs (s : PyStr) : goodSpaced (collapseWs ' ' s) = true := by
  induction s with
  | nil => rfl
  | cons a t ih =>
    cases t with
    | nil =>
      by_cases ha : isPySpace a <;> simp [collapseWs, goodSpaced, ha]
    | cons b u =>
      show goodSpaced (if isPySpace a then
          if isPySpace b then collapseWs ' ' (b :: u)
          else ' ' :: collapseWs ' ' (b :: u)
        else a :: collapseWs ' ' (b :: u)) = true
      by_cases ha : isPySpace a
      · by_cases hb : isPySpace b
        · simp only [ha, hb, if_pos]
          exact ih
        · simp only [ha, hb, if_pos, if_neg, Bool.false_eq_true, not_false_iff]
          rw [collapseWs_cons_of_neg (by simp [hb])] at ih ⊢
          show goodSpaced (' ' :: b :: collapseWs ' ' u) = true
          unfold goodSpaced
          rw [ih]
          simp [hb]
      · simp only [ha, Bool.false_eq_true, if_neg, not_false_iff]
        cases hnil : collapseWs ' ' (b :: u) with
        | nil => exact absurd hnil (collapseWs_ne_nil ' ' b u)
        | cons x y =>
          rw [hnil] at ih
          show goodSpaced (a :: x :: y) = true
          unfold goodSpaced
          rw [ih]
          simp [ha]

theorem goodSpaced_map_caseFold {s : PyStr} (h : goodSpaced s = true) :
    goodSpaced (s.map caseFoldChar) = true := by
  induction s with
  | nil => rfl
  | cons a t ih =>
    cases t with
    | nil =>
      simp only [goodSpaced, List.map_cons, List.map_nil] at h ⊢
      rcases Bool.or_eq_true_iff.mp h with ha | ha
      · rw [isPySpace_caseFoldChar]
        simp_all
      · have : a = ' ' := by simpa using ha
        subst this
        rw [show caseFoldChar (' ') = ' ' from rfl]
        simp
    | cons b u =>
      simp only [goodSpaced, List.map_cons, Bool.and_eq_true] at h ⊢
      refine ⟨?_, ih h.2⟩
      rcases Bool.or_eq_true_iff.mp h.1 with ha | ha
      · apply Bool.or_eq_true_iff.mpr
        left
        rw [isPySpace_caseFoldChar]
        exact ha
      · apply Bool.or_eq_true_iff.mpr
        right
        rcases Bool.and_eq_true_iff.mp ha with ⟨ha1, ha2⟩
        have : a = ' ' := by simpa using ha1
        subst this
        rw [show caseFoldChar (' ') = ' ' from rfl, isPySpace_caseFoldChar]
        simp_all

theorem collapseWs_of_goodSpaced {s : PyStr} (h : goodSpaced s = true) :
    collapseWs ' ' s = s := by
  induction s with
  | nil => rfl
  | cons a t ih =>
    cases t with
    | nil =>
      simp only [goodSpaced] at h
      rcases Bool.or_eq_true_iff.mp h with ha | ha
    
      · simp only [Bool.not_eq_true'] at ha
        simp [collapseWs, ha]
      · have : a = ' ' := by simpa using ha
        subst this
        simp [collapseWs]
    | cons b u =>
      simp only [goodSpaced, Bool.and_eq_true] at h
      have htail := ih h.2
      show (if isPySpace a then
          if isPySpace b then collapseWs ' ' (b :: u)
          else ' ' :: collapseWs ' ' (b :: u)
        else a :: collapseWs ' ' (b :: u)) = a :: b :: u
      rcases Bool.or_eq_true_iff.mp h.1 with ha | ha
      · simp only [Bool.not_eq_true'] at ha
        rw [if_neg (by simp [ha])]
        rw [htail]
      · rcases Bool.and_eq_true_iff.mp ha with ⟨ha1, ha2⟩
        have ha' : a = ' ' := by simpa using ha1
        subst ha'
        simp only [Bool.not_eq_true'] at ha2
        rw [if_pos (by decide), if_neg (by simp [ha2])]
        rw [htail]

theorem stripHash_of_head_ne {s : PyStr} (h : ∀ t, s ≠ '#' :: t) : stripHash s = s := by
  cases s with
  | nil => rfl
  | cons a t =>
    by_cases ha : a = '#'
    · subst ha
      exact absurd rfl (h t)
    · show stripHash (a :: t) = a :: t
      unfold stripHash
      split
      · next heq =>
          injection heq with h1 h2
          exact absurd h1 ha
      · rfl

theorem normalize_label_eq {l : PyStr} (h : l ≠ []) :
    normalize_label l = (collapseWs ' ' (stripHash (pyStrip l))).map caseFoldChar := by
  simp [normalize_label, h]

theorem normalize_label_empty : normalize_label [] = [] := by
  simp [normalize_label]

theorem normalize_label_idem_aux {l : PyStr}
    (hl : (pyStrip l).head? ≠ some '#') :
    normalize_label (normalize_label l) = normalize_label l := by
  by_cases h0 : l = []
  · subst h0
    rw [normalize_label_empty, normalize_label_empty]
  · cases hz : pyStrip l with
    | nil =>
      have h1 : normalize_label l = [] := by
        rw [normalize_label_eq h0, hz]
        rfl
      rw [h1, normalize_label_empty]
    | cons c t =>
      have hcw : isPySpace c = false := pyStrip_head_false hz
      have hch : c ≠ '#' := by
        rw [hz] at hl
        simpa using hl
      have hsh : stripHash (pyStrip l) = pyStrip l := by
        rw [hz]
        exact stripHash_of_head_ne (by
          intro u hu
          injection hu with h1 h2
          exact hch h1)
      have hy : normalize_label l =
          (caseFoldChar c) :: (collapseWs ' ' t).map caseFoldChar := by
        rw [normalize_label_eq h0, hsh, hz, collapseWs_cons_of_neg hcw]
        rfl
      set Y := collapseWs ' ' (c :: t) with hYdef
      have hYform : Y = c :: collapseWs ' ' t := collapseWs_cons_of_neg hcw
      have hymap : normalize_label l = Y.map caseFoldChar := by
        rw [normalize_label_eq h0, hsh, hz]
      -- the last character of `pyStrip l` is not whitespace
      obtain ⟨d, hd⟩ : ∃ d, (c :: t).getLast? = some d := by
        have : (c :: t).getLast?.isSome := List.getLast?_isSome.mpr (by simp)
        exact Option.isSome_iff_exists.mp this
      have hdw : isPySpace d = false := by
        have hrev : (pyStrip l).reverse.head? = some d := by
          rw [List.head?_reverse, hz]
          exact hd
        cases hrc : (pyStrip l).reverse with
        | nil => rw [hrc] at hrev; simp at hrev
        | cons e u =>
          rw [hrc] at hrev
          simp at hrev
          subst hrev
          exact pyStrip_reverse_head_false hrc
      have hYlast : Y.getLast? = some d := collapseWs_getLast? hd hdw
      -- `normalize_label l` has non-whitespace first and last characters
      have hyhead : ∀ a, (normalize_label l).head? = some a → isPySpace a = false := by
        intro a ha
        rw [hy] at ha
        simp at ha
        subst ha
        rw [isPySpace_caseFoldChar]
        exact hcw
      have hylast : ∀ a, (normalize_label l).getLast? = some a → isPySpace a = false := by
        intro a ha
        rw [hymap, List.getLast?_map, hYlast] at ha
        simp at ha
        subst ha
        rw [isPySpace_caseFoldChar]
        exact hdw
      have hstrip2 : pyStrip (normalize_label l) = normalize_label l :=
        pyStrip_eq_self hyhead hylast
      have hhash2 : stripHash (normalize_label l) = normalize_label l := by
        apply stripHash_of_head_ne
        intro u hu
        rw [hy] at hu
        injection hu with h1 h2
        exact hch (caseFoldChar_hash h1)
      have hgood : goodSpaced (normalize_label l) = true := by
        rw [hymap]
        exact goodSpaced_map_caseFold (hYdef ▸ goodSpaced_collapseWs (c :: t))
      have hcoll2 : collapseWs ' ' (normalize_label l) = normalize_label l :=
        collapseWs_of_goodSpaced hgood
      have hmap2 : (normalize_label l).map caseFoldChar = normalize_label l := by
        rw [hymap, List.map_map]
        exact List.map_congr_left (fun a _ => caseFoldChar_idem a)
      have hne : normalize_label l ≠ [] := by
        rw [hy]
        simp
      rw [normalize_label_eq hne, hstrip2, hhash2, hcoll2, hmap2]

theorem normalize_label_congr {x y : PyStr} (hx : x ≠ []) (hy : y ≠ [])
    (h : pyStrip x = pyStrip y) : normalize_label x = normalize_label y := by
  rw [normalize_label_eq hx, normalize_label_eq hy, h]

theorem ws_ne_rbracket {c : Char} (h : isPySpace c = true) : (!(c == ']')) = true := by
  by_cases hc : c = ']'
  · subst hc
    exact absurd h (by decide)
  · simp [hc]

theorem pyStrip_sandwich {w1 w2 : PyStr} (hw1 : ∀ c ∈ w1, isPySpace c = true)
    (hw2 : ∀ c ∈ w2, isPySpace c = true) (k : PyStr) :
    pyStrip (w1 ++ k ++ w2) = pyStrip k := by
  rw [List.append_assoc, pyStrip_ws_append hw1, pyStrip_append_ws hw2]

theorem replace_placeholders_step (tbl : PyDict) {w1 k w2 : PyStr} (s : PyStr)
    (hw1 : ∀ c ∈ w1, isPySpace c = true) (hw2 : ∀ c ∈ w2, isPySpace c = true)
    (hk : k ≠ []) (hk2 : ']' ∉ k) :
    replace_placeholders tbl ('[' :: '[' :: ((w1 ++ k ++ w2) ++ ']' :: ']' :: s)) =
      match dictGet tbl (normalize_label k) with
      | some v => v ++ replace_placeholders tbl s
      | none => '[' :: '[' :: ((w1 ++ k ++ w2) ++ ']' :: ']' :: replace_placeholders tbl s) := by
  have hall : ∀ c ∈ w1 ++ k ++ w2, (!(c == ']')) = true := by
    intro c hc
    simp only [List.mem_append] at hc
    rcases hc with (hc | hc) | hc
    · exact ws_ne_rbracket (hw1 c hc)
    · have : c ≠ ']' := fun he => hk2 (he ▸ hc)
      simp [this]
    · exact ws_ne_rbracket (hw2 c hc)
  have htake : ((w1 ++ k ++ w2) ++ ']' :: ']' :: s).takeWhile (fun c => !(c == ']')) =
      w1 ++ k ++ w2 := by
    rw [List.takeWhile_append_of_pos hall]
    simp
  have hdrop : ((w1 ++ k ++ w2) ++ ']' :: ']' :: s).dropWhile (fun c => !(c == ']')) =
      ']' :: ']' :: s := by
    rw [List.dropWhile_append_of_pos hall]
    simp
  have hpne : w1 ++ k ++ w2 ≠ [] := by
    simp [hk]
  have hnorm : normalize_label (w1 ++ k ++ w2) = normalize_label k :=
    normalize_label_congr hpne hk (pyStrip_sandwich hw1 hw2 k)
  rw [replace_placeholders]
  rw [htake, hdrop]
  rw [if_pos ⟨hpne, rfl⟩]
  rw [hnorm]
  rfl

theorem decValLE_decDigitsLE : ∀ fuel n, n ≤ fuel → decValLE (decDigitsLE fuel n) = n := by
  intro fuel
  induction fuel with
  | zero =>
    intro n hn
    have : n = 0 := by omega
    subst this
    rfl
  | succ fuel ih =>
    intro n hn
    unfold decDigitsLE
    by_cases h0 : n = 0
    · subst h0
      rfl
    · rw [if_neg h0]
      have hdiv : n / 10 ≤ fuel := by
        have := Nat.div_lt_self (by omega : 0 < n) (by omega : 1 < 10)
        omega
      unfold decValLE
      rw [ih (n / 10) hdiv]
      have hdig : (decDigit n).toNat = 48 + n % 10 := by
        unfold decDigit
        exact toNat_ofNat_of_lt _ (by omega)
      rw [hdig]
      omega

theorem natStr_inj {a b : Nat} (h : natStr a = natStr b) : a = b := by
  unfold natStr at h
  by_cases ha : a = 0 <;> by_cases hb : b = 0
  · omega
  · rw [if_pos ha, if_neg hb] at h
    have h2 : decDigitsLE (b + 1) b = ['0'] := by
      have := congrArg List.reverse h
      simpa using this.symm
    have h3 := decValLE_decDigitsLE (b + 1) b (by omega)
    rw [h2] at h3
    have : decValLE ['0'] = 0 := by decide
    omega
  · rw [if_neg ha, if_pos hb] at h
    have h2 : decDigitsLE (a + 1) a = ['0'] := by
      have := congrArg List.reverse h
      simpa using this
    have h3 := decValLE_decDigitsLE (a + 1) a (by omega)
    rw [h2] at h3
    have : decValLE ['0'] = 0 := by decide
    omega
  · rw [if_neg ha, if_neg hb] at h
    have h2 : decDigitsLE (a + 1) a = decDigitsLE (b + 1) b := by
      have := congrArg List.reverse h
      simpa using this
    have h3 := decValLE_decDigitsLE (a + 1) a (by omega)
    have h4 := decValLE_decDigitsLE (b + 1) b (by omega)
    rw [h2] at h3
    omega

theorem suffixedName_inj {base : PyStr} {j k : Nat}
    (h : suffixedName base j = suffixedName base k) : j = k := by
  unfold suffixedName at h
  have h1 := List.append_cancel_left (List.append_cancel_right h)
  injection h1 with h2 h3
  exact natStr_inj h3

theorem countP_split {α : Type} (p q : α → Bool) (hpq : ∀ a, q a = true → p a = true) :
    ∀ l : List α, l.countP p = l.countP q + l.countP (fun a => p a && !(q a)) := by
  intro l
  induction l with
  | nil => simp
  | cons a t ih =>
    rw [List.countP_cons, List.countP_cons, List.countP_cons, ih]
    by_cases hq : q a = true
    · have hp := hpq a hq
      simp [hp, hq]
      omega
    · simp only [Bool.not_eq_true] at hq
      by_cases hp : p a = true
      · simp [hp, hq]
        omega
      · simp [hp, hq]

theorem freeSuffixed_not_mem (existing : List PyStr) (base : PyStr) :
    ∀ fuel k,
      existing.countP
          (fun x => (List.range fuel).any (fun i => x == suffixedName base (k + i))) < fuel →
        freeSuffixed existing base fuel k ∉ existing := by
  intro fuel
  induction fuel with
  | zero =>
    intro k h
    simp at h
  | succ fuel ih =>
    intro k h
    show freeSuffixed existing base (fuel + 1) k ∉ existing
    unfold freeSuffixed
    by_cases hmem : suffixedName base k ∈ existing
    · rw [if_pos hmem]
      apply ih (k + 1)
      have hq2p : ∀ x : PyStr,
          ((List.range fuel).any (fun i => x == suffixedName base (k + 1 + i))) = true →
            ((List.range (fuel + 1)).any (fun i => x == suffixedName base (k + i))) = true := by
        intro x hx
        simp only [List.any_eq_true, List.mem_range] at hx ⊢
        obtain ⟨i, hi, he⟩ := hx
        refine ⟨i + 1, by omega, ?_⟩
        rw [show k + (i + 1) = k + 1 + i by omega]
        exact he
      have hsplit := countP_split _ _ hq2p existing
      have hpos : 0 < existing.countP
          (fun x => ((List.range (fuel + 1)).any (fun i => x == suffixedName base (k + i))) &&
            !((List.range fuel).any (fun i => x == suffixedName base (k + 1 + i)))) := by
        rw [List.countP_pos_iff]
        refine ⟨suffixedName base k, hmem, ?_⟩
        rw [Bool.and_eq_true]
        constructor
        · simp only [List.any_eq_true, List.mem_range]
          exact ⟨0, by omega, by simp⟩
        · rw [Bool.not_eq_true', Bool.eq_false_iff]
          intro hany
          simp only [List.any_eq_true, List.mem_range, beq_iff_eq] at hany
          obtain ⟨i, hi, he⟩ := hany
          have := suffixedName_inj he
          omega
      omega
    · rw [if_neg hmem]
      exact hmem

theorem outputName_not_mem (existing : List PyStr) (base : PyStr) :
    outputName existing base ∉ existing := by
  unfold outputName
  by_cases h : base ++ (".docx").toList ∈ existing
  · rw [if_pos h]
    apply freeSuffixed_not_mem
    have := List.countP_le_length
      (p := fun x => (List.range (existing.length + 1)).any
        (fun i => x == suffixedName base (1 + i))) (l := existing)
    omega
  · rw [if_neg h]
    exact h

theorem dictGet_mem {d : PyDict} {key v : PyStr} (h : dictGet d key = some v) :
    ∃ k, (k, v) ∈ d := by
  induction d with
  | nil => simp [dictGet] at h
  | cons hd rest ih =>
    obtain ⟨k0, v0⟩ := hd
    simp only [dictGet] at h
    cases hr : dictGet rest key with
    | some v' =>
      rw [hr] at h
      injection h with h
      subst h
      obtain ⟨k, hk⟩ := ih hr
      exact ⟨k, List.mem_cons_of_mem _ hk⟩
    | none =>
      rw [hr] at h
      by_cases hk : k0 = key
      · rw [if_pos hk] at h
        injection h with h
        subst h
        exact ⟨k0, List.mem_cons_self _ _⟩
      · rw [if_neg hk] at h
        exact absurd h (by simp)

theorem pyStrip_clean_cell (x : Option PyStr) :
    pyStrip (clean_cell_value x) = clean_cell_value x := by
  cases x with
  | none => rfl
  | some v =>
    show pyStrip (let text := pyStrip v; if text = [] then [] else text) =
      (let text := pyStrip v; if text = [] then [] else text)
    by_cases h : pyStrip v = []
    · simp [h]
      rfl
    · simp only [h, if_neg]
      simp [pyStrip_idem]

/-! ## Claims -/

/-- C1: the claim states that `evaluate("$Name[1]", {"name": "Ana Lopez"})`
returns `"Lopez"`, with the field-name run of a `$FIELD[N]` token covering
the whole field name.  The code behaves differently: the lazy quantifier in
`NAME_TEMPLATE_PATTERN` together with the optional index group makes every
token match exactly one field character, so `$Name[1]` matches only `$N`
(an absent key, yielding the empty string) and the text `ame[1]` remains
literally; `evaluate("$Name[1]", t)` is `"ame[1]"` and
`evaluate("$Name[5]", t)` is `"ame[5]"`.  The index path is reachable only
for single-character fields, as the third conjunct shows.  This contradicts
the evaluator's own docstring, which promises that `$Campo` inserts the
entire value of column `Campo`. -/
theorem c1_name_template_single_char_field :
    evaluate_name_template [(("name").toList, ("Ana Lopez").toList)] (("$Name[1]").toList)
        = ("ame[1]").toList ∧
      evaluate_name_template [(("name").toList, ("Ana Lopez").toList)] (("$Name[5]").toList)
        = ("ame[5]").toList ∧
      evaluate_name_template [(("n").toList, ("Ana Lopez").toList)] (("$n[1]").toList)
        = ("Lopez").toList := by
  refine ⟨?_, ?_, ?_⟩ <;>
    simp [evaluate_name_template, tryIndex, nameTokenRepl, normalize_label, stripHash,
      pyStrip, collapseWs, caseFoldChar, dictGet, isPySpace, isPyDigit, pySplit,
      pySplitGo, decValue]

/-- C2: the claim states that the row Nombre=Ana, Apellido=Diaz with document
text `[[Nombre]] [[Apellido]]` and name template `$Nombre $Apellido` yields
document text `Ana Diaz` and filename `Ana_Diaz.docx`.  The document-text
half holds, but the filename half does not: each `$` token of the name
template captures a single character (`$N`, `$A`), both resolve to missing
keys and become empty, and the leftovers `ombre`/`pellido` survive as
literal text, so the resolved base name is `ombre_pellido`, not `Ana_Diaz` —
the same lazy-quantifier defect as C1, contradicting the evaluator's
docstring. -/
theorem c2_end_to_end :
    replace_placeholders
        (row_to_replacements [(("Nombre").toList, ("Ana").toList),
          (("Apellido").toList, ("Diaz").toList)])
        (("[[Nombre]] [[Apellido]]").toList) = ("Ana Diaz").toList ∧
      resolve_name [(("Nombre").toList, ("Ana").toList), (("Apellido").toList, ("Diaz").toList)]
        (row_to_replacements [(("Nombre").toList, ("Ana").toList),
          (("Apellido").toList, ("Diaz").toList)])
        (some (("$Nombre $Apellido").toList)) 1 = ("ombre_pellido").toList := by
  constructor
  · simp [replace_placeholders, row_to_replacements, normalize_label, stripHash, pyStrip,
      collapseWs, caseFoldChar, dictGet, isPySpace]
  · simp [resolve_name, hasNameToken, evaluate_name_template, tryIndex, nameTokenRepl,
      normalize_label, stripHash, pyStrip, collapseWs, caseFoldChar, dictGet, isPySpace,
      isPyDigit, row_to_replacements, sanitize_filename, strip_diacritics, nfkdChar,
      isCombining, isAllowedFileChar, firstUsableValue]

/-- C3 (counterexample): label normalization is not idempotent on every
input.  For `"##a"` one normalization strips one `#` and yields `"#a"`,
and a second normalization strips the next `#` and yields `"a"`. -/
theorem c3_counterexample :
    normalize_label (normalize_label (("##a").toList)) ≠
      normalize_label (("##a").toList) := by
  decide

/-- C3 (amended): `normalize_label` is idempotent on every label whose
stripped form does not start with `#`; only labels whose stripped form
begins with `#` (for example with a second `#` or whitespace after it, as
in the counterexample) can normalize to a value that normalizes further. -/
theorem c3_normalize_idempotent_amended (l : PyStr)
    (hl : (pyStrip l).head? ≠ some '#') :
    normalize_label (normalize_label l) = normalize_label l :=
  normalize_label_idem_aux hl

/-- C3 (witness): the amended idempotence applied to the concrete label
`" A  b "`. -/
theorem c3_witness :
    normalize_label (normalize_label ((" A  b ").toList)) =
      normalize_label ((" A  b ").toList) :=
  c3_normalize_idempotent_amended ((" A  b ").toList) (by decide)

/-- C4: for every table, a placeholder `[[` + whitespace + key + whitespace +
`]]` whose trimmed, normalized key is present in the table is replaced,
brackets included, by the table's value; the scan continues after the
closing brackets in a single pass (the value itself is not rescanned).
In particular, substituting `"Hello [[Name]]"` with `{"name": "Ana"}`
yields `"Hello Ana"`. -/
theorem c4_present_placeholder_replaced :
    (∀ (tbl : PyDict) (w1 k w2 s v : PyStr),
      (∀ c ∈ w1, isPySpace c = true) → (∀ c ∈ w2, isPySpace c = true) →
      k ≠ [] → ']' ∉ k →
      dictGet tbl (normalize_label k) = some v →
      replace_placeholders tbl ('[' :: '[' :: ((w1 ++ k ++ w2) ++ ']' :: ']' :: s)) =
        v ++ replace_placeholders tbl s) ∧
    replace_placeholders [(("name").toList, ("Ana").toList)] (("Hello [[Name]]").toList) =
      ("Hello Ana").toList := by
  constructor
  · intro tbl w1 k w2 s v hw1 hw2 hk hk2 hv
    rw [replace_placeholders_step tbl s hw1 hw2 hk hk2, hv]
  · simp [replace_placeholders, normalize_label, stripHash, pyStrip, collapseWs,
      caseFoldChar, dictGet, isPySpace]

/-- C4 (witness): the general part applied to the table `{"name": "Ana"}`
and the placeholder `[[ Name ]]` followed by `x`. -/
theorem c4_witness :
    replace_placeholders [(("name").toList, ("Ana").toList)] (("[[ Name ]]x").toList) =
      ("Ana").toList ++
        replace_placeholders [(("name").toList, ("Ana").toList)] (("x").toList) :=
  c4_present_placeholder_replaced.1 [(("name").toList, ("Ana").toList)]
    [' '] (("Name").toList) [' '] (("x").toList) (("Ana").toList)
    (by decide) (by decide) (by decide) (by decide) (by decide)

/-- C5: a placeholder whose normalized key is absent from the table is left
in the output exactly as it appeared in the input (no removal, no error),
and the scan continues after it; in particular substituting
`"Hello [[Unknown]]"` against an empty table returns the input unchanged. -/
theorem c5_absent_placeholder_preserved :
    (∀ (tbl : PyDict) (w1 k w2 s : PyStr),
      (∀ c ∈ w1, isPySpace c = true) → (∀ c ∈ w2, isPySpace c = true) →
      k ≠ [] → ']' ∉ k →
      dictGet tbl (normalize_label k) = none →
      replace_placeholders tbl ('[' :: '[' :: ((w1 ++ k ++ w2) ++ ']' :: ']' :: s)) =
        '[' :: '[' :: ((w1 ++ k ++ w2) ++ ']' :: ']' :: replace_placeholders tbl s)) ∧
    replace_placeholders [] (("Hello [[Unknown]]").toList) =
      ("Hello [[Unknown]]").toList := by
  constructor
  · intro tbl w1 k w2 s hw1 hw2 hk hk2 hv
    rw [replace_placeholders_step tbl s hw1 hw2 hk hk2, hv]
  · simp [replace_placeholders, normalize_label, stripHash, pyStrip, collapseWs,
      caseFoldChar, dictGet, isPySpace]

/-- C5 (witness): the general part applied to the empty table and the
placeholder `[[Unknown]]` followed by `!`. -/
theorem c5_witness :
    replace_placeholders [] (("[[Unknown]]!").toList) =
      '[' :: '[' :: ((([] : PyStr) ++ ("Unknown").toList ++ ([] : PyStr)) ++
        ']' :: ']' :: replace_placeholders [] (("!").toList)) :=
  c5_absent_placeholder_preserved.1 [] [] (("Unknown").toList) [] (("!").toList)
    (by decide) (by decide) (by decide) (by decide) (by decide)

/-- The fallback loop of `resolve_name` finds nothing when no row value
sanitizes to a usable name. -/
theorem firstUsableValue_none {row : List (PyStr × PyStr)}
    (h : ∀ kv ∈ row, sanitize_filename kv.2 = []) : firstUsableValue row = none := by
  induction row with
  | nil => rfl
  | cons hd rest ih =>
    obtain ⟨k, v⟩ := hd
    have hv : sanitize_filename v = [] := h (k, v) (List.mem_cons_self _ _)
    have hrest : ∀ kv ∈ rest, sanitize_filename kv.2 = [] :=
      fun kv hkv => h kv (List.mem_cons_of_mem _ hkv)
    show (if v ≠ [] ∧ pyStrip v ≠ [] then
        if sanitize_filename v ≠ [] then some (sanitize_filename v)
        else firstUsableValue rest
      else firstUsableValue rest) = none
    by_cases hc : v ≠ [] ∧ pyStrip v ≠ []
    · rw [if_pos hc, if_neg (by simp [hv]), ih hrest]
    · rw [if_neg hc, ih hrest]

/-- C6 (counterexample): a row whose values are all empty or whitespace-only
is dropped by `load_rows` before any document is generated, so no document
with a fallback name is produced for it, contrary to the claim. -/
theorem c6_counterexample :
    load_row [(("Nombre").toList, some (("   ").toList)),
      (("Apellido").toList, some [])] = none := by
  decide

/-- C6 (amended): a row whose values are all missing, empty or
whitespace-only is skipped at load time and produces no document (and
generation does not fail); the deterministic fallback name
`row_{index:03d}`, which contains the row's sequence index, arises instead
for a processed row when no name column is given and no row value
sanitizes to a usable name — for example the loaded row `x="!!!"` with
sequence index 1 resolves to `row_001`. -/
theorem c6_amended :
    (∀ row : List (PyStr × Option PyStr),
      row.all (fun kv =>
        match kv.2 with
        | none => true
        | some v => pyStrip v = []) = true →
      load_row row = none) ∧
    (∀ (row : List (PyStr × PyStr)) (tbl : PyDict) (i : Nat),
      (∀ kv ∈ row, sanitize_filename kv.2 = []) →
      resolve_name row tbl none i = ("row_").toList ++ pad3 i) ∧
    load_row [(("x").toList, some (("!!!").toList))] =
        some [(("x").toList, ("!!!").toList)] ∧
    resolve_name [(("x").toList, ("!!!").toList)] [] none 1 = ("row_001").toList := by
  refine ⟨?_, ?_, by decide, by decide⟩
  · intro row h
    simp [load_row, h]
  · intro row tbl i h
    show (if ([] : PyStr) ≠ [] ∧ sanitize_filename [] ≠ [] then sanitize_filename []
      else
        match firstUsableValue row with
        | some s => s
        | none => ("row_").toList ++ pad3 i) = ("row_").toList ++ pad3 i
    rw [if_neg (by simp), firstUsableValue_none h]

/-- C6 (witness): the amended claim applied to a concrete all-whitespace raw
row and to a concrete unusable loaded row. -/
theorem c6_witness :
    load_row [(("a").toList, some ((" ").toList)), (("b").toList, none)] = none ∧
    resolve_name [(("a").toList, (("??").toList))] [] none 7 =
      ("row_").toList ++ pad3 7 :=
  ⟨c6_amended.1 [(("a").toList, some ((" ").toList)), (("b").toList, none)] (by decide),
    c6_amended.2.1 [(("a").toList, (("??").toList))] [] 7 (by decide)⟩

/-- C7: within one run no two rows produce colliding output filenames: the
chosen filename is never one that already exists (whether written earlier in
the run or pre-existing), an incrementing numeric suffix being appended
until the name is free; two rows that both yield base name `juan` get
`juan.docx` and `juan_1.docx`. -/
theorem c7_unique_output_names :
    (∀ (existing : List PyStr) (base : PyStr), outputName existing base ∉ existing) ∧
    outputName [] (("juan").toList) = ("juan.docx").toList ∧
    outputName [(("juan.docx").toList)] (("juan").toList) = ("juan_1.docx").toList := by
  refine ⟨outputName_not_mem, by decide, by decide⟩

/-- C7 (witness): the uniqueness invariant applied to a concrete output set
containing both `juan.docx` and `juan_1.docx`. -/
theorem c7_witness :
    outputName [(("juan.docx").toList), (("juan_1.docx").toList)] (("juan").toList) ∉
      [(("juan.docx").toList), (("juan_1.docx").toList)] :=
  c7_unique_output_names.1 [(("juan.docx").toList), (("juan_1.docx").toList)]
    (("juan").toList)

/-- C8: `sanitize_filename` trims, strips diacritics, replaces every
whitespace run with one underscore and deletes every character outside
`[A-Za-z0-9._-]` (every output character is in that class); in particular
`sanitize("José   Pérez!")` is `"Jose_Perez"`, and an input with no
permitted characters sanitizes to the empty string. -/
theorem c8_sanitize_filename :
    sanitize_filename (("José   Pérez!").toList) = ("Jose_Perez").toList ∧
    sanitize_filename (("¡¿").toList) = [] ∧
    ∀ s : PyStr, (sanitize_filename s).all isAllowedFileChar = true := by
  refine ⟨by decide, by decide, ?_⟩
  intro s
  rw [List.all_eq_true]
  intro c hc
  exact (List.mem_filter.mp hc).2

/-- C9 (counterexample): `strip_diacritics` does not leave every
non-alphabetic character unchanged: it uses the NFKD *compatibility*
decomposition, under which the non-alphabetic `²` (U+00B2) becomes the
digit `2`. -/
theorem c9_counterexample :
    strip_diacritics [('²')] ≠ [('²')] ∧ strip_diacritics [('²')] = [('2')] := by
  decide

/-- C9 (amended): `strip_diacritics` replaces each accented character by its
base letter using the Unicode NFKD decomposition and removes combining
marks, so composed and decomposed forms of the same visual text produce the
identical output (`"José"` composed and `"Jose"` plus U+0301 both strip to
`"Jose"`), and no combining character survives in the output; since NFKD is
a compatibility decomposition, characters with compatibility decompositions
(such as superscripts) are also transformed rather than left unchanged. -/
theorem c9_strip_diacritics_amended :
    strip_diacritics (("José").toList) = ("Jose").toList ∧
    strip_diacritics (("Jose").toList ++ [('́')]) = ("Jose").toList ∧
    ∀ s : PyStr, (strip_diacritics s).all (fun c => !(isCombining c)) = true := by
  refine ⟨by decide, by decide, ?_⟩
  intro s
  rw [List.all_eq_true]
  intro c hc
  exact (List.mem_filter.mp hc).2

/-- C10: every value reachable through a loaded row's replacement table is
already stripped of surrounding whitespace (`clean_cell_value` is applied to
every cell at load time), and a whitespace-only cell is stored as the empty
string. -/
theorem c10_cell_values_stripped :
    (∀ (raw : List (PyStr × Option PyStr)) (out : List (PyStr × PyStr)) (key v : PyStr),
      load_row raw = some out →
      dictGet (row_to_replacements out) key = some v →
      pyStrip v = v) ∧
    (∀ s : PyStr, (∀ c ∈ s, isPySpace c = true) → clean_cell_value (some s) = []) := by
  constructor
  · intro raw out key v hload hget
    have hout : out = (raw.filter (fun kv => !(kv.1 = []))).map
        (fun kv => (kv.1, clean_cell_value kv.2)) := by
      unfold load_row at hload
      split at hload
      · exact absurd hload (by simp)
      · injection hload with h
        exact h.symm
    obtain ⟨k, hk⟩ := dictGet_mem hget
    unfold row_to_replacements at hk
    rw [List.mem_map] at hk
    obtain ⟨kv, hkv, hkveq⟩ := hk
    have hv : v = kv.2 := by
      injection hkveq with h1 h2
      exact h2.symm
    rw [hout, List.mem_map] at hkv
    obtain ⟨kv0, _, hkv0eq⟩ := hkv
    have hv0 : kv.2 = clean_cell_value kv0.2 := by
      rw [← hkv0eq]
    rw [hv, hv0]
    exact pyStrip_clean_cell kv0.2
  · intro s hs
    show (let text := pyStrip s; if text = [] then [] else text) = []
    rw [pyStrip_all_ws hs]
    rfl

/-- C10 (witness): the invariant applied to a concrete raw row whose cell
` x ` is stored stripped and looked up through the replacement table. -/
theorem c10_witness : pyStrip (("x").toList) = ("x").toList :=
  c10_cell_values_stripped.1 [((("A").toList), some ((" x ").toList))]
    [(("A").toList, ("x").toList)] (("a").toList) (("x").toList)
    (by decide) (by decide)
